import Mathlib

/-!
Verification development for a Secret Santa matcher and notifier
(source: src/santa.js).

The script loads a participant list, computes a random perfect matching by
rejection sampling (no self-assignment; optionally no same-group pairs) and
sends one email per assignment.  We embed the data model and the operations
shallowly: randomness becomes an explicit list of index draws fed to the
Fisher-Yates shuffle, the retry loop becomes a fuelled loop over a list of
such draw sequences, and the email loop becomes a trace of events.
-/

namespace Santa

/-- A participant, as supplied by the configuration collaborator:
unique id `uid`, display `name`, `email` address and an optional `group`
label (`none` models an absent field; `some ""` an empty-string label). -/
structure Participant where
  uid : Nat
  name : String
  email : String
  group : Option String
  deriving DecidableEq, Repr

/-- One Secret Santa assignment: `giver` gives to `receiver`. -/
structure Assignment where
  giver : Participant
  receiver : Participant
  deriving DecidableEq, Repr

/-- JavaScript truthiness of the (possibly absent) `group` field: an absent
field and the empty string are falsy, every other string is truthy. -/
def truthy : Option String → Bool
  | none => false
  | some s => !(s == "")

/-- `[array[i], array[j]] = [array[j], array[i]]` — swap the entries at
positions `i` and `j`; out-of-range indices leave the list unchanged
(the source only ever uses in-range indices). -/
def swapIdx (l : List α) (i j : Nat) : List α :=
  match l[i]?, l[j]? with
  | some x, some y => (l.set i y).set j x
  | _, _ => l

/-- The body of `shuffle`'s `for` loop: `i` is the current loop variable
(the loop runs while `i > 0`), and `cs` supplies the random draw
`j = Math.floor(Math.random() * (i + 1))` for each iteration. -/
def fyLoop (l : List α) (i : Nat) (cs : List Nat) : List α :=
  match i, cs with
  | 0, _ => l
  | _ + 1, [] => l
  | k + 1, c :: cs' => fyLoop (swapIdx l (k + 1) c) k cs'

/-- `shuffle(array)` (Fisher-Yates): run the loop from `i = array.length - 1`
down to `1`, consuming one random draw per iteration from `cs`. -/
def shuffle (l : List α) (cs : List Nat) : List α :=
  fyLoop l (l.length - 1) cs

/-- `validChoices i cs` holds when `cs` is exactly the sequence of draws a
run of `fyLoop` starting at loop variable `i` consumes, with each draw `j`
in the range `0..i` that `Math.floor(Math.random() * (i + 1))` produces. -/
def validChoices : Nat → List Nat → Bool
  | 0, [] => true
  | 0, _ :: _ => false
  | _ + 1, [] => false
  | k + 1, c :: cs' => decide (c ≤ k + 1) && validChoices k cs'

/-- All draw sequences valid for a run starting at loop variable `i`. -/
def allChoices : Nat → List (List Nat)
  | 0 => [[]]
  | k + 1 => (List.range (k + 2)).flatMap fun c => (allChoices k).map (c :: ·)

/-- The `for` loop inside `createAssignments` that scans pairs
`givers[i] -> receivers[i]` and `break`s at the first violated rule:
rule 1 (`giver.uid === receiver.uid`) always, rule 2 (same truthy group)
only when `go` (the `groups_on` flag) is set.  Returns the final value of
`hasInvalidAssignment`. -/
def hasInvalid (go : Bool) : List Participant → List Participant → Bool
  | g :: gs, r :: rs =>
    if g.uid == r.uid then true
    else if go && truthy g.group && truthy r.group && (g.group == r.group) then true
    else hasInvalid go gs rs
  | _, _ => false

/-- The `while (hasInvalidAssignment)` retry loop of `createAssignments`:
each attempt reshuffles a fresh copy of the participant list with the next
draw sequence from `css` and accepts it when no rule is violated.  The
fuel is `css.length`; `none` models running out of supplied randomness
(the source has no attempt ceiling and would keep looping). -/
def createAssignmentsLoop (go : Bool) (parts : List Participant) :
    List (List Nat) → Option (List Participant)
  | [] => none
  | cs :: rest =>
    let receivers := shuffle parts cs
    if hasInvalid go parts receivers then createAssignmentsLoop go parts rest
    else some receivers

/-- `createAssignments()`: givers are the participants in input order; the
retry loop produces the receivers; the result pairs them index by index. -/
def createAssignments (go : Bool) (parts : List Participant)
    (css : List (List Nat)) : Option (List Assignment) :=
  (createAssignmentsLoop go parts css).map fun receivers =>
    (parts.zip receivers).map fun p => { giver := p.1, receiver := p.2 }

/-- Reference matcher, per-pair violation test, following the spec's words:
a pair violates when it is a self-match or, with exclusion on, a same-group
pair (both labels set). -/
def specViolation (go : Bool) (g r : Participant) : Bool :=
  (g.uid == r.uid) || (go && truthy g.group && truthy r.group && (g.group == r.group))

/-- Reference matcher, candidate test, following the spec's words: a
candidate receiver permutation is rejected iff it has a violation at
some index — zero violations across all indices means acceptance. -/
def specRejects (go : Bool) (givers receivers : List Participant) : Bool :=
  (givers.zip receivers).any fun p => specViolation go p.1 p.2

/-- Reference matcher, rejection sampling, following the spec's words:
draw a fresh shuffle of a fresh copy of the full participant list, abandon
the whole candidate on any violation, accept the first candidate with zero
violations. -/
def specMatcherLoop (go : Bool) (parts : List Participant) :
    List (List Nat) → Option (List Participant)
  | [] => none
  | cs :: rest =>
    let receivers := shuffle parts cs
    if specRejects go parts receivers then specMatcherLoop go parts rest
    else some receivers

/-- Reference matcher, following the spec's words: pair the givers, in
input order, with the accepted receiver permutation. -/
def specCreateAssignments (go : Bool) (parts : List Participant)
    (css : List (List Nat)) : Option (List Assignment) :=
  (specMatcherLoop go parts css).map fun receivers =>
    (parts.zip receivers).map fun p => { giver := p.1, receiver := p.2 }

/-- `const DRY_RUN = args.includes('--dry-run') || args.includes('-d') ? true : false`. -/
def DRY_RUN (args : List String) : Bool :=
  if args.contains "--dry-run" || args.contains "-d" then true else false

/-- `const groups_on = args.includes('--groups') || args.includes('-g') ? true : false`. -/
def groups_on (args : List String) : Bool :=
  if args.contains "--groups" || args.contains "-g" then true else false

/-- Observable events of a run: console logging, a call to the external
mail-sending capability (`transporter.sendMail`, recorded with the `to`
address), and markers for entering `createAssignments` / `sendEmails`. -/
inductive Event
  | log : String → Event
  | sendMail : String → Event
  | matcherInvoked : Event
  | senderInvoked : Event
  deriving DecidableEq, Repr

/-- The dry-run line logged for an assignment. -/
def dryRunMsg (a : Assignment) : String :=
  "(DRY RUN) Would email " ++ a.giver.name ++ " (" ++ a.giver.email ++
    "): \"You got " ++ a.receiver.name ++ "\""

/-- The success line logged after a send. -/
def sentMsg (a : Assignment) : String :=
  "Email sent successfully to " ++ a.giver.name

/-- The line logged by the `catch` block when a send throws. -/
def sendErrorMsg (a : Assignment) : String :=
  "Error sending email to " ++ a.giver.name

/-- The `for (const assignment of assignments)` loop of `sendEmails`.
`f k` tells whether the `k`-th `transporter.sendMail` call succeeds
(`false` = it throws); each send is awaited before the next begins.
In dry-run mode the loop only logs; otherwise it calls `sendMail` and
logs success, or catches the error and logs it. -/
def sendEmailsLoop (dryRun : Bool) (f : Nat → Bool) :
    Nat → List Assignment → List Event
  | _, [] => []
  | k, a :: rest =>
    (if dryRun then [Event.log (dryRunMsg a)]
     else [Event.sendMail a.giver.email,
           if f k then Event.log (sentMsg a) else Event.log (sendErrorMsg a)])
      ++ sendEmailsLoop dryRun f (k + 1) rest

/-- `sendEmails(assignments)`: log the header, then run the send loop. -/
def sendEmails (dryRun : Bool) (f : Nat → Bool) (assignments : List Assignment) :
    List Event :=
  Event.log "--- Sending Emails ---" :: sendEmailsLoop dryRun f 0 assignments

/-- Does an event call the external mail-sending capability? -/
def isSendMail : Event → Bool
  | .sendMail _ => true
  | _ => false

/-- The error logged by `main` when fewer than 2 participants are configured. -/
def tooFewMsg : String :=
  "Error: You need at least 2 participants for a Secret Santa."

/-- `main()`: validate the participant count (halting with an error when it
is below 2), print the dry-run banner, then run the matcher and, once the
full assignment set is finalized, the notifier.  `none` from the matcher
means it never returned, so nothing after it runs. -/
def mainTrace (parts : List Participant) (dryRun go : Bool)
    (css : List (List Nat)) (f : Nat → Bool) : List Event :=
  if parts.length < 2 then [Event.log tooFewMsg]
  else
    (if dryRun then [Event.log "RUNNING IN DRY MODE"] else []) ++
      Event.matcherInvoked ::
        match createAssignments go parts css with
        | none => []
        | some assignments =>
          Event.senderInvoked :: sendEmails dryRun f assignments ++
            [Event.log "All done!"]

/-- Sample participant (no group), used for concrete instantiations. -/
def pA : Participant := { uid := 1, name := "A", email := "a@x", group := none }

/-- Sample participant (no group), used for concrete instantiations. -/
def pB : Participant := { uid := 2, name := "B", email := "b@x", group := none }

/-- Sample participant in group `"X"`, used for concrete instantiations. -/
def pC : Participant := { uid := 3, name := "C", email := "c@x", group := some "X" }

/-- Sample participant in group `"X"`, used for concrete instantiations. -/
def pD : Participant := { uid := 4, name := "D", email := "d@x", group := some "X" }

/-- Sample participant with empty-string group, used for concrete instantiations. -/
def pE : Participant := { uid := 5, name := "E", email := "e@x", group := some "" }

/-- Sample participant with empty-string group, used for concrete instantiations. -/
def pF : Participant := { uid := 6, name := "F", email := "f@x", group := some "" }

/-- Sample participant in group `"Y"`, used for concrete instantiations. -/
def pG : Participant := { uid := 7, name := "G", email := "g@x", group := some "Y" }

/-! ### Permutation facts about the swap and the Fisher-Yates loop -/

theorem cons_set_perm (t : List α) (k : Nat) (hk : k < t.length) (a : α) :
    (t[k] :: t.set k a).Perm (a :: t) := by
  induction t generalizing k with
  | nil => exact absurd hk (Nat.not_lt_zero k)
  | cons b s ih =>
    cases k with
    | zero => simpa using List.Perm.swap a b s
    | succ m =>
      have hm : m < s.length := by simpa using hk
      simp only [List.getElem_cons_succ, List.set_cons_succ]
      have h1 : (s[m] :: b :: s.set m a).Perm (b :: s[m] :: s.set m a) :=
        List.Perm.swap b s[m] (s.set m a)
      have h2 : (b :: s[m] :: s.set m a).Perm (b :: a :: s) := (ih m hm).cons b
      exact (h1.trans h2).trans (List.Perm.swap a b s)

theorem set_set_perm (l : List α) (i j : Nat) (hi : i < l.length) (hj : j < l.length) :
    ((l.set i l[j]).set j l[i]).Perm l := by
  induction l generalizing i j with
  | nil => exact absurd hi (Nat.not_lt_zero i)
  | cons a t ih =>
    match i, j with
    | 0, 0 => simp
    | 0, m + 1 =>
      simp only [List.getElem_cons_zero, List.getElem_cons_succ, List.set_cons_zero,
        List.set_cons_succ]
      exact cons_set_perm t m (by simpa using hj) a
    | k + 1, 0 =>
      simp only [List.getElem_cons_zero, List.getElem_cons_succ, List.set_cons_zero,
        List.set_cons_succ]
      exact cons_set_perm t k (by simpa using hi) a
    | k + 1, m + 1 =>
      simp only [List.getElem_cons_succ, List.set_cons_succ]
      exact (ih k m (by simpa using hi) (by simpa using hj)).cons a

theorem swapIdx_eq_set (l : List α) (i j : Nat) (hi : i < l.length) (hj : j < l.length) :
    swapIdx l i j = (l.set i l[j]).set j l[i] := by
  simp [swapIdx, List.getElem?_eq_getElem hi, List.getElem?_eq_getElem hj]

theorem swapIdx_perm (l : List α) (i j : Nat) : (swapIdx l i j).Perm l := by
  unfold swapIdx
  cases hi : l[i]? with
  | none => cases l[j]? <;> exact List.Perm.refl l
  | some x =>
    cases hj : l[j]? with
    | none => exact List.Perm.refl l
    | some y =>
      obtain ⟨hi', rfl⟩ := List.getElem?_eq_some.mp hi
      obtain ⟨hj', rfl⟩ := List.getElem?_eq_some.mp hj
      exact set_set_perm l i j hi' hj'

theorem fyLoop_perm (i : Nat) (cs : List Nat) (l : List α) : (fyLoop l i cs).Perm l := by
  induction i generalizing l cs with
  | zero => exact List.Perm.refl l
  | succ k ih =>
    cases cs with
    | nil => exact List.Perm.refl l
    | cons c cs' => exact (ih cs' (swapIdx l (k + 1) c)).trans (swapIdx_perm l (k + 1) c)

theorem shuffle_perm (l : List α) (cs : List Nat) : (shuffle l cs).Perm l :=
  fyLoop_perm (l.length - 1) cs l

theorem shuffle_length (l : List α) (cs : List Nat) : (shuffle l cs).length = l.length :=
  (shuffle_perm l cs).length_eq

/-! ### The Fisher-Yates loop only touches positions up to the loop variable -/

theorem swapIdx_getElem?_high (l : List α) {i j m : Nat} (him : i < m) (hjm : j < m) :
    (swapIdx l i j)[m]? = l[m]? := by
  unfold swapIdx
  cases hi : l[i]? with
  | none => cases l[j]? <;> rfl
  | some x =>
    cases hj : l[j]? with
    | none => rfl
    | some y =>
      rw [List.getElem?_set_ne (Nat.ne_of_lt hjm), List.getElem?_set_ne (Nat.ne_of_lt him)]

theorem swapIdx_getElem?_fst (l : List α) {i j : Nat} (hi : i < l.length)
    (hj : j < l.length) : (swapIdx l i j)[i]? = some l[j] := by
  rw [swapIdx_eq_set l i j hi hj]
  rcases eq_or_ne j i with rfl | hne
  · rw [List.set_set]
    exact List.getElem?_set_eq_of_lt _ (by simpa using hi)
  · rw [List.getElem?_set_ne hne]
    exact List.getElem?_set_eq_of_lt _ (by simpa using hi)

theorem fyLoop_getElem?_high (i : Nat) (cs : List Nat) (l : List α) (m : Nat)
    (hv : validChoices i cs = true) (him : i < m) :
    (fyLoop l i cs)[m]? = l[m]? := by
  induction i generalizing l cs with
  | zero => rfl
  | succ k ih =>
    cases cs with
    | nil => simp [validChoices] at hv
    | cons c cs' =>
      simp only [validChoices, Bool.and_eq_true, decide_eq_true_eq] at hv
      have hstep : fyLoop l (k + 1) (c :: cs') = fyLoop (swapIdx l (k + 1) c) k cs' := rfl
      rw [hstep, ih cs' (swapIdx l (k + 1) c) hv.2 (Nat.lt_of_succ_lt him)]
      exact swapIdx_getElem?_high l him (lt_of_le_of_lt hv.1 him)

theorem validChoices_zero (cs : List Nat) (h : validChoices 0 cs = true) : cs = [] := by
  cases cs with
  | nil => rfl
  | cons c cs' => simp [validChoices] at h

/-! ### Every permutation is reached by exactly one valid draw sequence -/

theorem fyLoop_exists (i : Nat) (l rs : List α) (hi : i < l.length)
    (hlen : rs.length = l.length)
    (htake : (rs.take (i + 1)).Perm (l.take (i + 1)))
    (hdrop : rs.drop (i + 1) = l.drop (i + 1)) :
    ∃ cs, validChoices i cs = true ∧ fyLoop l i cs = rs := by
  induction i generalizing l rs with
  | zero =>
    refine ⟨[], rfl, ?_⟩
    cases l with
    | nil => simp at hi
    | cons a t =>
      cases rs with
      | nil => simp at hlen
      | cons b u =>
        simp only [List.take_succ, List.take_zero, List.drop_succ_cons, List.drop_zero]
          at htake hdrop
        have hba : b = a := by simpa using htake
        show (a : α) :: t = b :: u
        rw [hba, hdrop]
  | succ k ih =>
    have hk1 : k + 1 < rs.length := hlen ▸ hi
    have hmem : rs[k + 1] ∈ l.take (k + 2) := by
      have hin : rs[k + 1] ∈ rs.take (k + 2) :=
        List.mem_take_iff_getElem.mpr ⟨k + 1, by omega, rfl⟩
      exact htake.mem_iff.mp hin
    obtain ⟨c, hc, hcl⟩ := List.mem_take_iff_getElem.mp hmem
    have hck : c ≤ k + 1 := by omega
    have hcll : c < l.length := by omega
    have ha'len : (swapIdx l (k + 1) c).length = l.length :=
      (swapIdx_perm l (k + 1) c).length_eq
    have ha'k1 : (swapIdx l (k + 1) c)[k + 1]? = some l[c] :=
      swapIdx_getElem?_fst l hi hcll
    have ha'high : ∀ m, k + 1 < m → (swapIdx l (k + 1) c)[m]? = l[m]? :=
      fun m hm => swapIdx_getElem?_high l hm (lt_of_le_of_lt hck hm)
    -- the swap reshuffles only the first k+2 positions
    have htake2 : ((swapIdx l (k + 1) c).take (k + 2)).Perm (l.take (k + 2)) := by
      have h1 : k + 1 < (l.take (k + 2)).length := by simp; omega
      have h2 : c < (l.take (k + 2)).length := by simp; omega
      have hrw : (swapIdx l (k + 1) c).take (k + 2) =
          ((l.take (k + 2)).set (k + 1) (l.take (k + 2))[c]).set c
            (l.take (k + 2))[k + 1] := by
        rw [swapIdx_eq_set l (k + 1) c hi hcll, List.set_take, List.set_take,
          List.getElem_take, List.getElem_take]
      rw [hrw]
      exact set_set_perm (l.take (k + 2)) (k + 1) c h1 h2
    -- hence the new prefix of length k+1 is a permutation of the receivers' prefix
    have hsplit_rs : rs.take (k + 2) = rs.take (k + 1) ++ [rs[k + 1]] := by
      rw [List.take_succ, List.getElem?_eq_getElem hk1]
      rfl
    have ha'k1' : k + 1 < (swapIdx l (k + 1) c).length := ha'len ▸ hi
    have ha'val : (swapIdx l (k + 1) c)[k + 1] = rs[k + 1] := by
      have := List.getElem?_eq_getElem ha'k1'
      rw [ha'k1] at this
      have h0 := Option.some.inj this
      rw [← h0, hcl]
    have hsplit_a' : (swapIdx l (k + 1) c).take (k + 2) =
        (swapIdx l (k + 1) c).take (k + 1) ++ [rs[k + 1]] := by
      rw [List.take_succ, List.getElem?_eq_getElem ha'k1', ha'val]
      rfl
    have htake' : (rs.take (k + 1)).Perm ((swapIdx l (k + 1) c).take (k + 1)) := by
      have hcomb : (rs.take (k + 1) ++ [rs[k + 1]]).Perm
          ((swapIdx l (k + 1) c).take (k + 1) ++ [rs[k + 1]]) := by
        rw [← hsplit_rs, ← hsplit_a']
        exact htake.trans htake2.symm
      have h3 := ((List.perm_append_singleton _ _).symm.trans hcomb).trans
        (List.perm_append_singleton _ _)
      exact (List.perm_cons _).mp h3
    have hdrop' : rs.drop (k + 1) = (swapIdx l (k + 1) c).drop (k + 1) := by
      apply List.ext_getElem?
      intro n
      rw [List.getElem?_drop, List.getElem?_drop]
      cases n with
      | zero =>
        rw [ha'k1, List.getElem?_eq_getElem hk1, hcl]
      | succ m =>
        have hhigh := ha'high (k + 1 + (m + 1)) (by omega)
        rw [hhigh]
        have := congrArg (fun t => t[m]?) hdrop
        simpa [List.getElem?_drop, Nat.add_assoc, Nat.add_comm, Nat.add_left_comm]
          using this
    obtain ⟨cs', hv', heq'⟩ := ih (swapIdx l (k + 1) c) rs
      (by rw [ha'len]; omega) (by rw [hlen, ha'len]) htake' hdrop'
    refine ⟨c :: cs', ?_, ?_⟩
    · simp [validChoices, hck, hv']
    · show fyLoop (swapIdx l (k + 1) c) k cs' = rs
      exact heq'

theorem fyLoop_inj (i : Nat) (l : List α) (hnd : l.Nodup) (hi : i < l.length)
    (cs1 cs2 : List Nat) (h1 : validChoices i cs1 = true)
    (h2 : validChoices i cs2 = true)
    (heq : fyLoop l i cs1 = fyLoop l i cs2) : cs1 = cs2 := by
  induction i generalizing l cs1 cs2 with
  | zero => rw [validChoices_zero cs1 h1, validChoices_zero cs2 h2]
  | succ k ih =>
    cases cs1 with
    | nil => simp [validChoices] at h1
    | cons c1 cs1' =>
      cases cs2 with
      | nil => simp [validChoices] at h2
      | cons c2 cs2' =>
        simp only [validChoices, Bool.and_eq_true, decide_eq_true_eq] at h1 h2
        have hc1 : c1 < l.length := lt_of_le_of_lt h1.1 hi
        have hc2 : c2 < l.length := lt_of_le_of_lt h2.1 hi
        have e1 : (fyLoop l (k + 1) (c1 :: cs1'))[k + 1]? = some l[c1] := by
          have hstep : fyLoop l (k + 1) (c1 :: cs1') =
              fyLoop (swapIdx l (k + 1) c1) k cs1' := rfl
          rw [hstep, fyLoop_getElem?_high k cs1' _ (k + 1) h1.2 (Nat.lt_succ_self k)]
          exact swapIdx_getElem?_fst l hi hc1
        have e2 : (fyLoop l (k + 1) (c2 :: cs2'))[k + 1]? = some l[c2] := by
          have hstep : fyLoop l (k + 1) (c2 :: cs2') =
              fyLoop (swapIdx l (k + 1) c2) k cs2' := rfl
          rw [hstep, fyLoop_getElem?_high k cs2' _ (k + 1) h2.2 (Nat.lt_succ_self k)]
          exact swapIdx_getElem?_fst l hi hc2
        have hval : l[c1] = l[c2] := by
          have := e1.symm.trans (heq ▸ e2)
          exact Option.some.inj this
        have hcc : c1 = c2 := (hnd.getElem_inj_iff).mp hval
        subst hcc
        have hnd' : (swapIdx l (k + 1) c1).Nodup :=
          ((swapIdx_perm l (k + 1) c1).symm).nodup hnd
        have heq' : fyLoop (swapIdx l (k + 1) c1) k cs1' =
            fyLoop (swapIdx l (k + 1) c1) k cs2' := heq
        have hlt : k < (swapIdx l (k + 1) c1).length := by
          rw [(swapIdx_perm l (k + 1) c1).length_eq]; omega
        rw [ih (swapIdx l (k + 1) c1) hnd' hlt cs1' cs2' h1.2 h2.2 heq']

/-! ### The sample space of valid draw sequences -/

theorem mem_allChoices (n : Nat) (cs : List Nat) :
    cs ∈ allChoices n ↔ validChoices n cs = true := by
  induction n generalizing cs with
  | zero => cases cs <;> simp [allChoices, validChoices]
  | succ k ih =>
    cases cs with
    | nil => simp [allChoices, validChoices]
    | cons c cs' =>
      simp [allChoices, List.mem_flatMap, List.mem_range, validChoices, ih,
        Nat.lt_succ_iff]

theorem length_allChoices (n : Nat) :
    (allChoices n).length = Nat.factorial (n + 1) := by
  induction n with
  | zero => rfl
  | succ k ih =>
    simp only [allChoices, List.length_flatMap]
    have hfun : (List.length ∘ fun c : Nat => (allChoices k).map (c :: ·)) =
        fun _ : Nat => Nat.factorial (k + 1) := by
      funext c
      simp [ih]
    have hconst : (List.range (k + 2)).map (fun _ => Nat.factorial (k + 1)) =
        List.replicate (k + 2) (Nat.factorial (k + 1)) := by
      have := List.map_const (List.range (k + 2)) (Nat.factorial (k + 1))
      simpa [Function.const, List.length_range] using this
    have hfac : Nat.factorial (k + 1 + 1) = (k + 2) * Nat.factorial (k + 1) :=
      Nat.factorial_succ (k + 1)
    rw [hfun, hconst, List.sum_replicate, smul_eq_mul, hfac]

theorem shuffle_surjective (l rs : List α) (hperm : rs.Perm l) :
    ∃ cs, validChoices (l.length - 1) cs = true ∧ shuffle l cs = rs := by
  cases l with
  | nil =>
    have hrs : rs = [] := List.perm_nil.mp hperm
    exact ⟨[], rfl, by simp [shuffle, fyLoop, hrs]⟩
  | cons a t =>
    have hlen : rs.length = (a :: t).length := hperm.length_eq
    have hi : (a :: t).length - 1 < (a :: t).length := by simp
    have htake : (rs.take ((a :: t).length - 1 + 1)).Perm
        ((a :: t).take ((a :: t).length - 1 + 1)) := by
      have h1 : (a :: t).length - 1 + 1 = (a :: t).length := by simp
      rw [h1, List.take_length, ← hlen, List.take_length]
      exact hperm
    have hdrop : rs.drop ((a :: t).length - 1 + 1) =
        (a :: t).drop ((a :: t).length - 1 + 1) := by
      have h1 : (a :: t).length - 1 + 1 = (a :: t).length := by simp
      rw [h1, List.drop_length, ← hlen, List.drop_length]
    exact fyLoop_exists ((a :: t).length - 1) (a :: t) rs hi hlen htake hdrop

/-! ### What an accepted attempt of the retry loop satisfies -/

theorem createAssignmentsLoop_some (go : Bool) (parts : List Participant)
    (css : List (List Nat)) (rs : List Participant)
    (h : createAssignmentsLoop go parts css = some rs) :
    rs.Perm parts ∧ hasInvalid go parts rs = false := by
  induction css with
  | nil => simp [createAssignmentsLoop] at h
  | cons cs rest ih =>
    simp only [createAssignmentsLoop] at h
    by_cases hv : hasInvalid go parts (shuffle parts cs) = true
    · rw [if_pos hv] at h
      exact ih h
    · rw [if_neg hv] at h
      have hrs : shuffle parts cs = rs := Option.some.inj h
      rw [← hrs]
      exact ⟨shuffle_perm parts cs, by simpa using hv⟩

theorem hasInvalid_false_uid (go : Bool) :
    ∀ (gs rs : List Participant), hasInvalid go gs rs = false →
      ∀ p ∈ gs.zip rs, p.1.uid ≠ p.2.uid
  | [], _, _, p, hp => by simp at hp
  | _ :: _, [], _, p, hp => by simp at hp
  | g :: gs, r :: rs, h, p, hp => by
    simp only [hasInvalid] at h
    by_cases h1 : g.uid == r.uid
    · rw [if_pos h1] at h
      exact absurd h (by simp)
    · rw [if_neg h1] at h
      rcases List.mem_cons.mp hp with rfl | hp'
      · simpa using h1
      · by_cases h2 : go && truthy g.group && truthy r.group && (g.group == r.group)
        · rw [if_pos h2] at h
          exact absurd h (by simp)
        · rw [if_neg h2] at h
          exact hasInvalid_false_uid go gs rs h p hp'

theorem hasInvalid_false_group :
    ∀ (gs rs : List Participant), hasInvalid true gs rs = false →
      ∀ p ∈ gs.zip rs, truthy p.1.group = true → truthy p.2.group = true →
        p.1.group ≠ p.2.group
  | [], _, _, p, hp => by simp at hp
  | _ :: _, [], _, p, hp => by simp at hp
  | g :: gs, r :: rs, h, p, hp => by
    simp only [hasInvalid] at h
    by_cases h1 : g.uid == r.uid
    · rw [if_pos h1] at h
      exact absurd h (by simp)
    · rw [if_neg h1] at h
      by_cases h2 : true && truthy g.group && truthy r.group && (g.group == r.group)
      · rw [if_pos h2] at h
        exact absurd h (by simp)
      · rw [if_neg h2] at h
        rcases List.mem_cons.mp hp with rfl | hp'
        · intro htg htr
          simp only [Bool.and_eq_true, true_and] at h2
          intro hgr
          exact h2 ⟨⟨htg, htr⟩, beq_iff_eq.mpr (by exact hgr)⟩
        · exact hasInvalid_false_group gs rs h p hp'

/-! ### The implemented early-break scan equals the spec's all-indices scan -/

theorem hasInvalid_eq_specRejects (go : Bool) :
    ∀ (gs rs : List Participant), hasInvalid go gs rs = specRejects go gs rs
  | [], rs => by cases rs <;> simp [hasInvalid, specRejects]
  | g :: gs, [] => by simp [hasInvalid, specRejects]
  | g :: gs, r :: rs => by
    simp only [hasInvalid, specRejects, List.zip_cons_cons, List.any_cons,
      specViolation]
    by_cases h1 : g.uid == r.uid
    · simp [h1]
    · by_cases h2 : go && truthy g.group && truthy r.group && (g.group == r.group)
      · simp [h1, h2]
      · have ih := hasInvalid_eq_specRejects go gs rs
        simp only [specRejects] at ih
        simp [h1, h2, ih, specViolation]

theorem createAssignmentsLoop_eq_specMatcherLoop (go : Bool)
    (parts : List Participant) :
    ∀ css, createAssignmentsLoop go parts css = specMatcherLoop go parts css
  | [] => rfl
  | cs :: rest => by
    simp only [createAssignmentsLoop, specMatcherLoop,
      hasInvalid_eq_specRejects go parts (shuffle parts cs),
      createAssignmentsLoop_eq_specMatcherLoop go parts rest]

theorem createAssignments_some (go : Bool) (parts : List Participant)
    (css : List (List Nat)) (out : List Assignment)
    (h : createAssignments go parts css = some out) :
    ∃ rs, createAssignmentsLoop go parts css = some rs ∧
      out = (parts.zip rs).map fun p => { giver := p.1, receiver := p.2 } := by
  simp only [createAssignments, Option.map_eq_some'] at h
  obtain ⟨rs, h1, h2⟩ := h
  exact ⟨rs, h1, h2.symm⟩

/-! ## The claims -/

/-- C1: for every participant list of size `N ≥ 2`, whenever
`createAssignments` returns, its output has exactly `N` assignments, the
givers appear in input order, the receivers form a permutation of the input
participant list, and no assignment pairs a giver with a receiver having
the same unique id. -/
theorem matcher_output_correct (go : Bool) (parts : List Participant)
    (css : List (List Nat)) (out : List Assignment) (hN : 2 ≤ parts.length)
    (h : createAssignments go parts css = some out) :
    out.length = parts.length ∧
    out.map Assignment.giver = parts ∧
    (out.map Assignment.receiver).Perm parts ∧
    ∀ a ∈ out, a.giver.uid ≠ a.receiver.uid := by
  obtain ⟨rs, hloop, hout⟩ := createAssignments_some go parts css out h
  obtain ⟨hperm, hval⟩ := createAssignmentsLoop_some go parts css rs hloop
  have hlen : rs.length = parts.length := hperm.length_eq
  have hgiver : out.map Assignment.giver = parts := by
    rw [hout, List.map_map]
    have hfun : (Assignment.giver ∘ fun p : Participant × Participant =>
        ({ giver := p.1, receiver := p.2 } : Assignment)) = Prod.fst := rfl
    rw [hfun]
    exact List.map_fst_zip parts rs (le_of_eq hlen.symm)
  have hreceiver : out.map Assignment.receiver = rs := by
    rw [hout, List.map_map]
    have hfun : (Assignment.receiver ∘ fun p : Participant × Participant =>
        ({ giver := p.1, receiver := p.2 } : Assignment)) = Prod.snd := rfl
    rw [hfun]
    exact List.map_snd_zip parts rs (le_of_eq hlen)
  refine ⟨?_, hgiver, ?_, ?_⟩
  · have := congrArg List.length hgiver
    simpa using this
  · rw [hreceiver]
    exact hperm
  · intro a ha
    rw [hout] at ha
    obtain ⟨p, hp, rfl⟩ := List.mem_map.mp ha
    exact hasInvalid_false_uid go parts rs hval p hp

/-- C1 witness: a concrete two-person list on which the matcher returns,
with the guarantees evaluated. -/
theorem matcher_output_correct_witness :
    2 ≤ ([pA, pB] : List Participant).length ∧
    createAssignments false [pA, pB] [[0]] =
      some [{ giver := pA, receiver := pB }, { giver := pB, receiver := pA }] ∧
    ([{ giver := pA, receiver := pB }, { giver := pB, receiver := pA }] :
        List Assignment).length = ([pA, pB] : List Participant).length ∧
    ([{ giver := pA, receiver := pB }, { giver := pB, receiver := pA }] :
        List Assignment).map Assignment.giver = [pA, pB] ∧
    (([{ giver := pA, receiver := pB }, { giver := pB, receiver := pA }] :
        List Assignment).map Assignment.receiver).Perm [pA, pB] ∧
    ∀ a ∈ ([{ giver := pA, receiver := pB }, { giver := pB, receiver := pA }] :
        List Assignment), a.giver.uid ≠ a.receiver.uid :=
  ⟨by decide, by decide,
    matcher_output_correct false [pA, pB] [[0]] _ (by decide) (by decide)⟩

/-- C3: if group exclusion is on and no permutation of the participants
passes the checks (no derangement avoiding same-group pairs exists), the
retry loop never returns: whatever the number of attempts supplied, the
loop condition stays true and `createAssignments` produces no output. -/
theorem matcher_unsatisfiable_never_returns (parts : List Participant)
    (css : List (List Nat))
    (h : ∀ rs ∈ parts.permutations', hasInvalid true parts rs = true) :
    createAssignments true parts css = none := by
  have hloop : createAssignmentsLoop true parts css = none := by
    induction css with
    | nil => rfl
    | cons cs rest ih =>
      simp only [createAssignmentsLoop]
      rw [if_pos (h _ (List.mem_permutations'.mpr (shuffle_perm parts cs)))]
      exact ih
  simp [createAssignments, hloop]

/-- C3 witness: two participants in the same group with exclusion on — no
permutation is acceptable, and the matcher yields nothing for a concrete
sequence of attempts. -/
theorem matcher_unsatisfiable_never_returns_witness :
    (∀ rs ∈ ([pC, pD] : List Participant).permutations',
      hasInvalid true [pC, pD] rs = true) ∧
    createAssignments true [pC, pD] [[0], [1], [0]] = none :=
  ⟨by decide, matcher_unsatisfiable_never_returns [pC, pD] [[0], [1], [0]] (by decide)⟩

/-- C5: the implemented loop (break on the first violated index, reshuffle
a fresh copy of the full list, accept the first candidate that survives
the whole scan) is equivalent to the reference rejection-sampling
definition written from the spec. -/
theorem matcher_refines_rejection_sampling (go : Bool) (parts : List Participant)
    (css : List (List Nat)) :
    createAssignments go parts css = specCreateAssignments go parts css := by
  simp [createAssignments, specCreateAssignments,
    createAssignmentsLoop_eq_specMatcherLoop]

/-- C9: group exclusion is enabled iff the arguments include `--groups` or
`-g`; the `--group-check` flag advertised by the help text does not enable
it. -/
theorem groups_flag_parsing (args : List String) :
    (groups_on args = true ↔ ("--groups" ∈ args ∨ "-g" ∈ args)) ∧
    groups_on ["--group-check"] = false := by
  constructor
  · simp [groups_on]
  · decide

/-- C2: with group exclusion on, if some derangement avoiding same-group
pairs exists then the matcher can terminate — some sequence of random
draws makes it return — and every assignment it ever returns in which both
group labels are set has distinct groups.  (Termination is formalised as
reachability over the explicit random draws; the source terminates with
probability 1 in that case.) -/
theorem matcher_groups_terminates_and_safe (parts : List Participant)
    (h : ∃ rs, rs.Perm parts ∧ hasInvalid true parts rs = false) :
    (∃ css out, createAssignments true parts css = some out) ∧
    (∀ css out, createAssignments true parts css = some out →
      ∀ a ∈ out, truthy a.giver.group = true → truthy a.receiver.group = true →
        a.giver.group ≠ a.receiver.group) := by
  constructor
  · obtain ⟨rs, hperm, hval⟩ := h
    obtain ⟨cs, _, hsh⟩ := shuffle_surjective parts rs hperm
    refine ⟨[cs], (parts.zip rs).map fun p => { giver := p.1, receiver := p.2 }, ?_⟩
    simp [createAssignments, createAssignmentsLoop, hsh, hval]
  · intro css out hsome a ha htg htr
    obtain ⟨rs, hloop, hout⟩ := createAssignments_some true parts css out hsome
    obtain ⟨_, hval⟩ := createAssignmentsLoop_some true parts css rs hloop
    rw [hout] at ha
    obtain ⟨p, hp, rfl⟩ := List.mem_map.mp ha
    exact hasInvalid_false_group parts rs hval p hp htg htr

/-- C2 witness: two participants in distinct groups; the swap is a valid
derangement, so the matcher can return, and returned pairs never share a
group. -/
theorem matcher_groups_terminates_and_safe_witness :
    (∃ rs, rs.Perm ([pC, pG] : List Participant) ∧
      hasInvalid true [pC, pG] rs = false) ∧
    ((∃ css out, createAssignments true [pC, pG] css = some out) ∧
      (∀ css out, createAssignments true [pC, pG] css = some out →
        ∀ a ∈ out, truthy a.giver.group = true → truthy a.receiver.group = true →
          a.giver.group ≠ a.receiver.group)) :=
  ⟨⟨[pG, pC], by decide, by decide⟩,
    matcher_groups_terminates_and_safe [pC, pG] ⟨[pG, pC], by decide, by decide⟩⟩

/-- C4: the shuffle is an unbiased Fisher-Yates shuffle.  The sample space
`allChoices` enumerates exactly the draw sequences a run can consume (each
draw `j` uniform on `0..i` corresponds to one entry), it has `N!` elements,
and for a duplicate-free list every reordering is produced by exactly one
draw sequence — so under uniform draws every one of the `N!` orderings has
probability `1/N!`. -/
theorem shuffle_unbiased (l rs : List α) (hnd : l.Nodup) (hperm : rs.Perm l) :
    (∀ cs, cs ∈ allChoices (l.length - 1) ↔ validChoices (l.length - 1) cs = true) ∧
    (allChoices (l.length - 1)).length = Nat.factorial l.length ∧
    ∃! cs, validChoices (l.length - 1) cs = true ∧ shuffle l cs = rs := by
  refine ⟨mem_allChoices _, ?_, ?_⟩
  · cases l with
    | nil => rfl
    | cons a t =>
      simp only [List.length_cons, Nat.add_sub_cancel]
      exact length_allChoices t.length
  · obtain ⟨cs, hv, hs⟩ := shuffle_surjective l rs hperm
    refine ⟨cs, ⟨hv, hs⟩, ?_⟩
    rintro cs' ⟨hv', hs'⟩
    cases l with
    | nil => rw [validChoices_zero cs' hv', validChoices_zero cs hv]
    | cons a t =>
      have hi : (a :: t).length - 1 < (a :: t).length := by simp
      exact fyLoop_inj ((a :: t).length - 1) (a :: t) hnd hi cs' cs hv' hv
        (hs'.trans hs.symm)

/-- C4 witness: the three-element list `[0, 1, 2]` — the sample space has
`3! = 6` draw sequences and the cyclic shift `[1, 2, 0]` is produced by
exactly one of them. -/
theorem shuffle_unbiased_witness :
    ([0, 1, 2] : List Nat).Nodup ∧ ([1, 2, 0] : List Nat).Perm [0, 1, 2] ∧
    ((∀ cs, cs ∈ allChoices (([0, 1, 2] : List Nat).length - 1) ↔
        validChoices (([0, 1, 2] : List Nat).length - 1) cs = true) ∧
      (allChoices (([0, 1, 2] : List Nat).length - 1)).length =
        Nat.factorial ([0, 1, 2] : List Nat).length ∧
      ∃! cs, validChoices (([0, 1, 2] : List Nat).length - 1) cs = true ∧
        shuffle ([0, 1, 2] : List Nat) cs = [1, 2, 0]) :=
  ⟨by decide, by decide, shuffle_unbiased [0, 1, 2] [1, 2, 0] (by decide) (by decide)⟩

/-- C6: with the dry-run flag set, `sendEmails` performs zero calls to the
external mail-sending capability, for every assignment set and every
behaviour of the transport. -/
theorem dry_run_sends_nothing (f : Nat → Bool) (assignments : List Assignment) :
    (sendEmails true f assignments).filter isSendMail = [] := by
  have hloop : ∀ k as, (sendEmailsLoop true f k as).filter isSendMail = [] := by
    intro k as
    induction as generalizing k with
    | nil => rfl
    | cons a rest ih => simp [sendEmailsLoop, isSendMail, ih]
  simp [sendEmails, isSendMail, hloop]

/-- C7: in live mode a failing send is not retried and does not abort the
rest: exactly one `sendMail` call is made per assignment, in order,
whatever the transport does, and a failure at position `i` is caught and
logged. -/
theorem send_failure_isolated (f : Nat → Bool) (assignments : List Assignment)
    (i : Nat) (hi : i < assignments.length) (hf : f i = false) :
    (sendEmails false f assignments).filter isSendMail =
      assignments.map (fun a => Event.sendMail a.giver.email) ∧
    Event.log (sendErrorMsg (assignments.get ⟨i, hi⟩)) ∈
      sendEmails false f assignments := by
  constructor
  · have hloop : ∀ k as, (sendEmailsLoop false f k as).filter isSendMail =
        as.map (fun a => Event.sendMail a.giver.email) := by
      intro k as
      induction as generalizing k with
      | nil => rfl
      | cons a rest ih =>
        by_cases hfk : f k <;> simp [sendEmailsLoop, isSendMail, hfk, ih]
    simp [sendEmails, isSendMail, hloop]
  · have hmem : ∀ (as : List Assignment) (k j : Nat) (hj : j < as.length),
        f (k + j) = false →
        Event.log (sendErrorMsg (as.get ⟨j, hj⟩)) ∈ sendEmailsLoop false f k as := by
      intro as
      induction as with
      | nil => intro k j hj; simp at hj
      | cons a rest ih =>
        intro k j hj hfkj
        cases j with
        | zero =>
          simp only [sendEmailsLoop, List.get]
          simp only [Nat.add_zero] at hfkj
          simp [hfkj]
        | succ m =>
          have hm : m < rest.length := by simpa using hj
          have hf' : f (k + 1 + m) = false := by
            have : k + 1 + m = k + (m + 1) := by omega
            rw [this]
            exact hfkj
          have hrec := ih (k + 1) m hm hf'
          simp only [sendEmailsLoop, List.get]
          exact List.mem_append_right _ hrec
    have hin := hmem assignments 0 i hi (by simpa using hf)
    simp only [sendEmails, List.mem_cons]
    right
    exact hin

/-- C7 witness: a transport that always fails — both sends are still
attempted and the failure at position 0 is logged. -/
theorem send_failure_isolated_witness :
    0 < ([{ giver := pA, receiver := pB }, { giver := pB, receiver := pA }] :
        List Assignment).length ∧
    (fun _ : Nat => false) 0 = false ∧
    ((sendEmails false (fun _ => false)
        [{ giver := pA, receiver := pB }, { giver := pB, receiver := pA }]).filter
          isSendMail =
      ([{ giver := pA, receiver := pB }, { giver := pB, receiver := pA }] :
          List Assignment).map (fun a => Event.sendMail a.giver.email) ∧
    Event.log (sendErrorMsg (([{ giver := pA, receiver := pB },
        { giver := pB, receiver := pA }] : List Assignment).get ⟨0, by decide⟩)) ∈
      sendEmails false (fun _ => false)
        [{ giver := pA, receiver := pB }, { giver := pB, receiver := pA }]) :=
  ⟨by decide, rfl,
    send_failure_isolated (fun _ => false)
      [{ giver := pA, receiver := pB }, { giver := pB, receiver := pA }] 0
      (by decide) rfl⟩

/-- C8: with fewer than 2 participants the run only reports the
configuration error: the trace is exactly that error line, and neither
`createAssignments` nor `sendEmails` is ever invoked. -/
theorem too_few_participants_halts (parts : List Participant) (dryRun go : Bool)
    (css : List (List Nat)) (f : Nat → Bool) (h : parts.length < 2) :
    mainTrace parts dryRun go css f = [Event.log tooFewMsg] ∧
    Event.matcherInvoked ∉ mainTrace parts dryRun go css f ∧
    Event.senderInvoked ∉ mainTrace parts dryRun go css f := by
  have htrace : mainTrace parts dryRun go css f = [Event.log tooFewMsg] := by
    simp [mainTrace, h]
  refine ⟨htrace, ?_, ?_⟩ <;> simp [htrace]

/-- C8 witness: a single-participant list halts with the error for a
concrete flag and transport configuration. -/
theorem too_few_participants_halts_witness :
    ([pA] : List Participant).length < 2 ∧
    (mainTrace [pA] false false [] (fun _ => true) = [Event.log tooFewMsg] ∧
      Event.matcherInvoked ∉ mainTrace [pA] false false [] (fun _ => true) ∧
      Event.senderInvoked ∉ mainTrace [pA] false false [] (fun _ => true)) :=
  ⟨by decide, too_few_participants_halts [pA] false false [] (fun _ => true) (by decide)⟩

/-- C10: the group check treats a falsy (empty-string) group label as
absent: two participants whose groups are both `""` pass the scan and may
be assigned to each other even with group exclusion enabled. -/
theorem empty_group_skips_exclusion (g r : Participant) (hg : g.group = some "")
    (hr : r.group = some "") (huid : g.uid ≠ r.uid) :
    hasInvalid true [g, r] [r, g] = false ∧
    createAssignments true [g, r] [[0]] =
      some [{ giver := g, receiver := r }, { giver := r, receiver := g }] := by
  have h1 : (g.uid == r.uid) = false := beq_eq_false_iff_ne.mpr huid
  have h2 : (r.uid == g.uid) = false := beq_eq_false_iff_ne.mpr (Ne.symm huid)
  have ht : truthy g.group = false := by rw [hg]; rfl
  have hswap : shuffle [g, r] [0] = [r, g] := by
    simp [shuffle, fyLoop, swapIdx]
  constructor
  · simp [hasInvalid, h1, h2, ht]
  · simp [createAssignments, createAssignmentsLoop, hswap, hasInvalid, h1, h2, ht]

/-- C10 witness: two concrete participants with empty-string groups end up
assigned to each other under group exclusion. -/
theorem empty_group_skips_exclusion_witness :
    pE.group = some "" ∧ pF.group = some "" ∧ pE.uid ≠ pF.uid ∧
    (hasInvalid true [pE, pF] [pF, pE] = false ∧
      createAssignments true [pE, pF] [[0]] =
        some [{ giver := pE, receiver := pF }, { giver := pF, receiver := pE }]) :=
  ⟨rfl, rfl, by decide, empty_group_skips_exclusion pE pF rfl rfl (by decide)⟩

end Santa
